import Mathlib

/-!
Verification of the file-enumeration and copy-execution engine of the
selective project-backup utility (`專案備份.py`).

The Python source is shallowly embedded: every definition below mirrors a
function or a piece of state of the source program.  Paths that the tree
walker produces are represented as lists of components relative to the
source root; strings use the Lean `String` type, with Python's `str.lower`
modelled by ASCII lowering (folder names handled by the tool are ASCII).
-/

/-! ## String helpers (Python `str.lower`, `str.startswith`) -/

/-- Python `s.lower()` restricted to ASCII case folding, applied
character-wise (mirrors how `is_excluded` lower-cases folder names). -/
def pyLower (s : String) : String := ⟨s.data.map Char.toLower⟩

/-- Python `s.startswith(p)` on strings. -/
def strStartsWith (s p : String) : Bool := p.data.isPrefixOf s.data

theorem lowerChar_idem (c : Char) : Char.toLower (Char.toLower c) = Char.toLower c := by
  unfold Char.toLower
  by_cases h : c.toNat ≥ 65 ∧ c.toNat ≤ 90
  · have hv : (c.toNat + 32).isValidChar := Or.inl (by omega)
    have ht : (Char.ofNat (c.toNat + 32)).toNat = c.toNat + 32 := by
      rw [Char.ofNat, dif_pos hv]; rfl
    simp only [if_pos h, ht]
    rw [if_neg (by omega)]
  · simp only [if_neg h]

theorem pyLower_idem (s : String) : pyLower (pyLower s) = pyLower s := by
  cases s with
  | mk data =>
    simp only [pyLower, List.map_map]
    congr 1
    exact List.map_congr_left fun c _ => lowerChar_idem c

/-! ## Exclusion rules

State of the rule editor: the stored (original-case) lists
`excluded_exact_list` / `excluded_prefix_list` together with the derived
lower-cased matching sets `EXCLUDED_FOLDERS_EXACT_LOWER` /
`EXCLUDED_FOLDERS_PREFIX_LOWER`.  Python keeps the matching sets as `set`;
here they are lists compared by membership. -/

structure RulesState where
  exactList : List String
  prefixList : List String
  exactLower : List String
  prefixLower : List String
deriving DecidableEq

/-- Invariant maintained by `load_config` and `update_lower_sets`: the
matching sets are the lower-cased image of the stored lists. -/
def wellFormedRules (s : RulesState) : Prop :=
  s.exactLower = s.exactList.map pyLower ∧ s.prefixLower = s.prefixList.map pyLower

instance (s : RulesState) : Decidable (wellFormedRules s) := by
  unfold wellFormedRules; infer_instance

/-- `is_excluded(folder_name)` (lines 60-68): lower-case the name, test exact
membership, then test each stored lower-cased starting pattern. -/
def isExcludedR (rs : RulesState) (folderName : String) : Bool :=
  let lowerName := pyLower folderName
  decide (lowerName ∈ rs.exactLower) || rs.prefixLower.any (fun p => strStartsWith lowerName p)

/-- `update_lower_sets` (lines 419-423): rebuild both matching sets from the
stored lists. -/
def updateLowerSets (s : RulesState) : RulesState :=
  { s with exactLower := s.exactList.map pyLower, prefixLower := s.prefixList.map pyLower }

/-- `add_item` (lines 425-435) on the exact-name list.  The entry text is
already stripped by the widget handler; a non-empty item absent from the
stored list (case-sensitive comparison) is appended and the matching sets
rebuilt; otherwise only a warning is shown and the state is unchanged. -/
def addExactRule (s : RulesState) (item : String) : RulesState :=
  if item ≠ "" ∧ item ∉ s.exactList then
    updateLowerSets { s with exactList := s.exactList ++ [item] }
  else s

/-- `add_item` on the starting-pattern list. -/
def addPrefixRule (s : RulesState) (item : String) : RulesState :=
  if item ≠ "" ∧ item ∉ s.prefixList then
    updateLowerSets { s with prefixList := s.prefixList ++ [item] }
  else s

/-- `remove_selected` (lines 437-448) for one selected exact-name entry:
drop the first stored occurrence, then rebuild the matching sets. -/
def removeExactRule (s : RulesState) (item : String) : RulesState :=
  updateLowerSets { s with exactList := s.exactList.erase item }

/-- `remove_selected` for one selected starting-pattern entry. -/
def removePrefixRule (s : RulesState) (item : String) : RulesState :=
  updateLowerSets { s with prefixList := s.prefixList.erase item }

/-- `DEFAULT_EXCLUDED_FOLDERS_EXACT` (line 12). -/
def defaultExcludedExact : List String := [".git", "node_modules"]

/-- `DEFAULT_EXCLUDED_FOLDERS_PREFIX` (line 13). -/
def defaultExcludedStarts : List String := ["firebase-export-"]

/-- Rule state right after `load_config` found no stored rules: the default
lists with their lower-cased matching sets. -/
def defaultRulesState : RulesState :=
  { exactList := defaultExcludedExact
    prefixList := defaultExcludedStarts
    exactLower := defaultExcludedExact.map pyLower
    prefixLower := defaultExcludedStarts.map pyLower }

/-! ## Source tree and the walker (`calculation_thread`, lines 148-168)

A directory is a name, a list of child directories and a list of regular
file names.  `walkTree` mirrors `os.walk(source_dir, topdown=True)` with the
in-place `dirs[:]` filtering: at each directory the current directory's
files are recorded first (as component paths relative to the walk root),
then each child directory is visited in order — a child is descended into
iff `ignore_exclusions` is true or `is_excluded` rejects it.  Pruning the
child list before descent and skipping a pruned child at descent time
collect the same files in the same order. -/

inductive FSTree where
  | dir (name : String) (subdirs : List FSTree) (files : List String)

def FSTree.name : FSTree → String
  | .dir n _ _ => n

def FSTree.files : FSTree → List String
  | .dir _ _ fs => fs

mutual
def walkTree (ign : Bool) (rs : RulesState) : FSTree → List (List String)
  | .dir _ subdirs files =>
    files.map (fun f => [f]) ++ walkSubs ign rs subdirs
def walkSubs (ign : Bool) (rs : RulesState) : List FSTree → List (List String)
  | [] => []
  | c :: cs =>
    (if ign || !isExcludedR rs c.name then (walkTree ign rs c).map (fun p => c.name :: p) else [])
      ++ walkSubs ign rs cs
end

mutual
/-- Every regular file of a tree, in the same discovery order, with no rule
applied — the reference enumeration. -/
def filesIn : FSTree → List (List String)
  | .dir _ subdirs files => files.map (fun f => [f]) ++ filesInSubs subdirs
def filesInSubs : List FSTree → List (List String)
  | [] => []
  | c :: cs => (filesIn c).map (fun p => c.name :: p) ++ filesInSubs cs
end

mutual
/-- The running `count += 1` of `calculation_thread`: one increment per
recorded file, following exactly the walk that fills `temp_file_list`. -/
def countTree (ign : Bool) (rs : RulesState) : FSTree → Nat
  | .dir _ subdirs files => files.length + countSubs ign rs subdirs
def countSubs (ign : Bool) (rs : RulesState) : List FSTree → Nat
  | [] => 0
  | c :: cs =>
    (if ign || !isExcludedR rs c.name then countTree ign rs c else 0) + countSubs ign rs cs
end

/-- `calculation_thread` (lines 148-168): the produced plan pairs each file's
absolute source path `os.path.join(dirpath, file)` with
`os.path.join(actual_dest_dir, relpath)`, and the final count.  Paths are
component lists; `srcRoot`/`destRoot` are the roots the code joins onto. -/
def calculationThread (ign : Bool) (rs : RulesState) (srcRoot destRoot : List String)
    (t : FSTree) : List (List String × List String) × Nat :=
  ((walkTree ign rs t).map (fun rel => (srcRoot ++ rel, destRoot ++ rel)),
    countTree ign rs t)

/-! ### Walker lemmas -/

mutual
theorem walkTree_full (rs : RulesState) (t : FSTree) :
    walkTree true rs t = filesIn t := by
  cases t with
  | dir n subdirs files => simp [walkTree, filesIn, walkSubs_full rs subdirs]
theorem walkSubs_full (rs : RulesState) (l : List FSTree) :
    walkSubs true rs l = filesInSubs l := by
  cases l with
  | nil => simp [walkSubs, filesInSubs]
  | cons c cs => simp [walkSubs, filesInSubs, walkTree_full rs c, walkSubs_full rs cs]
end

mutual
theorem filesIn_ne_nil (t : FSTree) : ∀ p ∈ filesIn t, p ≠ [] := by
  cases t with
  | dir n subdirs files =>
    intro p hp
    simp only [filesIn, List.mem_append, List.mem_map] at hp
    rcases hp with ⟨f, _, rfl⟩ | hp
    · simp
    · exact filesInSubs_ne_nil subdirs p hp
theorem filesInSubs_ne_nil (l : List FSTree) : ∀ p ∈ filesInSubs l, p ≠ [] := by
  cases l with
  | nil => simp [filesInSubs]
  | cons c cs =>
    intro p hp
    simp only [filesInSubs, List.mem_append, List.mem_map] at hp
    rcases hp with ⟨q, _, rfl⟩ | hp
    · simp
    · exact filesInSubs_ne_nil cs p hp
end

mutual
theorem countTree_eq_length (ign : Bool) (rs : RulesState) (t : FSTree) :
    countTree ign rs t = (walkTree ign rs t).length := by
  cases t with
  | dir n subdirs files =>
    simp [countTree, walkTree, countSubs_eq_length ign rs subdirs]
theorem countSubs_eq_length (ign : Bool) (rs : RulesState) (l : List FSTree) :
    countSubs ign rs l = (walkSubs ign rs l).length := by
  cases l with
  | nil => simp [countSubs, walkSubs]
  | cons c cs =>
    by_cases h : (ign || !isExcludedR rs c.name) = true
    · simp [countSubs, walkSubs, h, countTree_eq_length ign rs c, countSubs_eq_length ign rs cs]
    · simp [countSubs, walkSubs, h, countSubs_eq_length ign rs cs]
end

mutual
/-- Characterisation of the selective walk: a relative path is produced iff
it is a regular file of the tree and none of its directory components is
excluded.  Regular-file names themselves are never tested. -/
theorem walkTree_selective_mem (rs : RulesState) (t : FSTree) (p : List String) :
    p ∈ walkTree false rs t ↔
      p ∈ filesIn t ∧ ∀ d ∈ p.dropLast, isExcludedR rs d = false := by
  cases t with
  | dir n subdirs files =>
    simp only [walkTree, filesIn, List.mem_append, List.mem_map]
    constructor
    · rintro (⟨f, hf, rfl⟩ | hp)
      · exact ⟨Or.inl ⟨f, hf, rfl⟩, by simp⟩
      · have hrec := (walkSubs_selective_mem rs subdirs p).1 hp
        exact ⟨Or.inr hrec.1, hrec.2⟩
    · rintro ⟨⟨f, hf, rfl⟩ | hp, hclean⟩
      · exact Or.inl ⟨f, hf, rfl⟩
      · exact Or.inr ((walkSubs_selective_mem rs subdirs p).2 ⟨hp, hclean⟩)
theorem walkSubs_selective_mem (rs : RulesState) (l : List FSTree) (p : List String) :
    p ∈ walkSubs false rs l ↔
      p ∈ filesInSubs l ∧ ∀ d ∈ p.dropLast, isExcludedR rs d = false := by
  cases l with
  | nil => simp [walkSubs, filesInSubs]
  | cons c cs =>
    by_cases hex : isExcludedR rs c.name = true
    · rw [show (p ∈ walkSubs false rs (c :: cs)) =
          (p ∈ walkSubs false rs cs) by simp [walkSubs, hex]]
      rw [(walkSubs_selective_mem rs cs p)]
      simp only [filesInSubs, List.mem_append, List.mem_map]
      constructor
      · rintro ⟨hp, hclean⟩
        exact ⟨Or.inr hp, hclean⟩
      · rintro ⟨⟨q, hq, rfl⟩ | hp, hclean⟩
        · exfalso
          have hqne : q ≠ [] := filesIn_ne_nil c q hq
          have hcn : isExcludedR rs c.name = false := by
            refine hclean c.name ?_
            rw [List.dropLast_cons_of_ne_nil hqne]
            exact List.mem_cons_self _ _
          rw [hex] at hcn
          exact absurd hcn (by simp)
        · exact ⟨hp, hclean⟩
    · rw [Bool.not_eq_true] at hex
      rw [show (p ∈ walkSubs false rs (c :: cs)) =
          (p ∈ (walkTree false rs c).map (fun q => c.name :: q) ++ walkSubs false rs cs)
          by simp [walkSubs, hex]]
      simp only [filesInSubs, List.mem_append, List.mem_map]
      constructor
      · rintro (⟨q, hq, rfl⟩ | hp)
        · have hrec := (walkTree_selective_mem rs c q).1 hq
          have hqne : q ≠ [] := filesIn_ne_nil c q hrec.1
          refine ⟨Or.inl ⟨q, hrec.1, rfl⟩, ?_⟩
          intro d hd
          rw [List.dropLast_cons_of_ne_nil hqne] at hd
          rcases List.mem_cons.1 hd with rfl | hd
          · exact hex
          · exact hrec.2 d hd
        · have hrec := (walkSubs_selective_mem rs cs p).1 hp
          exact ⟨Or.inr hrec.1, hrec.2⟩
      · rintro ⟨⟨q, hq, rfl⟩ | hp, hclean⟩
        · have hqne : q ≠ [] := filesIn_ne_nil c q hq
          refine Or.inl ⟨q, ?_, rfl⟩
          refine (walkTree_selective_mem rs c q).2 ⟨hq, ?_⟩
          intro d hd
          refine hclean d ?_
          rw [List.dropLast_cons_of_ne_nil hqne]
          exact List.mem_cons_of_mem _ hd
        · exact Or.inr ((walkSubs_selective_mem rs cs p).2 ⟨hp, hclean⟩)
end

/-! ## Demonstration trees (the spec's end-to-end source tree) -/

/-- Source tree `{file1.txt, .git/config, node_modules/pkg/index.js,
sub/file2.txt}`. -/
def demoTree : FSTree :=
  .dir "proj"
    [ .dir ".git" [] ["config"],
      .dir "node_modules" [.dir "pkg" [] ["index.js"]] [],
      .dir "sub" [] ["file2.txt"] ]
    ["file1.txt"]

/-- A tree with a regular file literally named `node_modules` at the root. -/
def demoTreeFileNamedNodeModules : FSTree :=
  .dir "proj" [] ["node_modules", "readme.md"]

/-! ## Claim C1 -/

/-- C1: in selective mode (`ignore_exclusions = False`) no produced entry's
source path passes through an excluded folder (excluded subtrees are pruned
before descent), and in full mode (`ignore_exclusions = True`) the plan
holds every regular file of the tree.  Paths are relative to the walked
source root. -/
theorem c1_selective_prunes_full_enumerates (rs : RulesState) (t : FSTree) :
    (∀ p, p ∈ walkTree false rs t → ∀ d, d ∈ p.dropLast → isExcludedR rs d = false) ∧
    walkTree true rs t = filesIn t := by
  constructor
  · intro p hp d hd
    exact ((walkTree_selective_mem rs t p).1 hp).2 d hd
  · exact walkTree_full rs t

/-- Witness for C1 on the spec's demonstration tree: `sub/file2.txt` is in
the selective plan, its only directory component is `sub`, and the theorem
yields that `sub` is not excluded; the full walk enumerates all files. -/
theorem c1_witness :
    (["sub", "file2.txt"] ∈ walkTree false defaultRulesState demoTree) ∧
    ("sub" ∈ (["sub", "file2.txt"] : List String).dropLast) ∧
    isExcludedR defaultRulesState "sub" = false ∧
    walkTree true defaultRulesState demoTree = filesIn demoTree :=
  ⟨by decide, by decide,
    (c1_selective_prunes_full_enumerates defaultRulesState demoTree).1
      ["sub", "file2.txt"] (by decide) "sub" (by decide),
    (c1_selective_prunes_full_enumerates defaultRulesState demoTree).2⟩

/-! ## Claim C3 -/

/-- C3: for every completed calculation, selective or full, the reported
total count equals the length of the produced entry list. -/
theorem c3_total_count_eq_length (ign : Bool) (rs : RulesState)
    (srcRoot destRoot : List String) (t : FSTree) :
    (calculationThread ign rs srcRoot destRoot t).2 =
      (calculationThread ign rs srcRoot destRoot t).1.length := by
  simp [calculationThread, countTree_eq_length]

/-! ## Claim C9 -/

/-- C9: exclusion rules filter only directory names during the walk, never
regular-file names: every regular file all of whose ancestor directories
are unexcluded appears in the selective plan, with no condition on the
file's own name. -/
theorem c9_rules_ignore_file_names (rs : RulesState) (t : FSTree) (p : List String)
    (hp : p ∈ filesIn t) (hdirs : ∀ d ∈ p.dropLast, isExcludedR rs d = false) :
    p ∈ walkTree false rs t :=
  (walkTree_selective_mem rs t p).2 ⟨hp, hdirs⟩

/-- Witness for C9: a regular file literally named `node_modules` — a name
the rules would exclude — sits at the tree root and is still planned. -/
theorem c9_witness :
    isExcludedR defaultRulesState "node_modules" = true ∧
    ["node_modules"] ∈ walkTree false defaultRulesState demoTreeFileNamedNodeModules :=
  ⟨by decide,
    c9_rules_ignore_file_names defaultRulesState demoTreeFileNamedNodeModules
      ["node_modules"] (by decide) (by decide)⟩

/-! ## Claim C2 -/

/-- C2: the `is_excluded` contract — true iff the lower-cased name is in
the lower-cased exact set or starts with a stored lower-cased pattern;
`is_excluded` is casing-blind; and after adding a (non-empty) name to the
exact list of a well-formed rule state, every casing of that name is
excluded. -/
theorem c2_is_excluded_contract (rs : RulesState) (n : String) :
    (isExcludedR rs n = true ↔
      pyLower n ∈ rs.exactLower ∨ ∃ p ∈ rs.prefixLower, strStartsWith (pyLower n) p = true) ∧
    isExcludedR rs n = isExcludedR rs (pyLower n) ∧
    (∀ m : String, wellFormedRules rs → n ≠ "" → pyLower m = pyLower n →
      isExcludedR (addExactRule rs n) m = true) := by
  refine ⟨?_, ?_, ?_⟩
  · simp [isExcludedR, List.any_eq_true]
  · simp [isExcludedR, pyLower_idem]
  · intro m hwf hn hlow
    by_cases hmem : n ∈ rs.exactList
    · have : addExactRule rs n = rs := by
        simp [addExactRule, hmem]
      rw [this]
      have hin : pyLower m ∈ rs.exactLower := by
        rw [hwf.1, hlow]
        exact List.mem_map_of_mem pyLower hmem
      simp [isExcludedR, hin]
    · have : addExactRule rs n =
          updateLowerSets { rs with exactList := rs.exactList ++ [n] } := by
        simp [addExactRule, hn, hmem]
      rw [this]
      simp only [isExcludedR, updateLowerSets, Bool.or_eq_true, decide_eq_true_eq]
      refine Or.inl ?_
      rw [List.map_append, hlow]
      exact List.mem_append.2 (Or.inr (by simp))

/-- Witness for C2: adding `MyTemp` to the default rules excludes the
casing `MYTEMP`. -/
theorem c2_witness :
    isExcludedR (addExactRule defaultRulesState "MyTemp") "MYTEMP" = true :=
  (c2_is_excluded_contract defaultRulesState "MyTemp").2.2 "MYTEMP"
    (by decide) (by decide) (by decide)

/-! ## Claim C10 -/

/-- C10: duplicate detection in `add_item` is case-sensitive while matching
is case-insensitive.  With `e` stored, `v ≠ e` absent but equal to `e` up
to casing, adding `v` appends it (both entries stored), yet `is_excluded`
is unchanged everywhere; and every add or remove re-establishes that the
lower-cased matching sets are the lower-cased image of the stored lists. -/
theorem c10_dup_check_case_sensitive (rs : RulesState) (v e : String)
    (hwf : wellFormedRules rs) (he : e ∈ rs.exactList) (hv : v ≠ "")
    (hnv : v ∉ rs.exactList) (_hne : v ≠ e) (hlow : pyLower v = pyLower e) :
    (addExactRule rs v).exactList = rs.exactList ++ [v] ∧
    (∀ name, isExcludedR (addExactRule rs v) name = isExcludedR rs name) ∧
    (∀ s item, wellFormedRules s →
      wellFormedRules (addExactRule s item) ∧ wellFormedRules (addPrefixRule s item) ∧
      wellFormedRules (removeExactRule s item) ∧ wellFormedRules (removePrefixRule s item)) := by
  have hstep : addExactRule rs v =
      updateLowerSets { rs with exactList := rs.exactList ++ [v] } := by
    simp [addExactRule, hv, hnv]
  refine ⟨by rw [hstep]; rfl, ?_, ?_⟩
  · intro name
    rw [hstep]
    simp only [isExcludedR, updateLowerSets]
    have hpre : ({ rs with exactList := rs.exactList ++ [v]} : RulesState).prefixList.map pyLower
        = rs.prefixLower := hwf.2.symm
    rw [hpre]
    have hmem : (pyLower name ∈ (rs.exactList ++ [v]).map pyLower) ↔
        (pyLower name ∈ rs.exactLower) := by
      rw [List.map_append, hwf.1]
      constructor
      · intro h
        rcases List.mem_append.1 h with h | h
        · exact h
        · rw [List.mem_singleton.1 h, hlow, ← hwf.1]
          rw [hwf.1]
          exact List.mem_map_of_mem pyLower he
      · intro h
        exact List.mem_append.2 (Or.inl h)
    rw [decide_eq_decide.2 hmem]
  · intro s item hwfs
    refine ⟨?_, ?_, ⟨rfl, rfl⟩, ⟨rfl, rfl⟩⟩
    · by_cases h : item ≠ "" ∧ item ∉ s.exactList
      · simp [addExactRule, h, updateLowerSets, wellFormedRules]
      · simp only [addExactRule, if_neg h]
        exact hwfs
    · by_cases h : item ≠ "" ∧ item ∉ s.prefixList
      · simp [addPrefixRule, h, updateLowerSets, wellFormedRules]
      · simp only [addPrefixRule, if_neg h]
        exact hwfs

/-- Witness for C10: `.Git` is appended next to the stored `.git`, and the
matcher is unchanged on a sample name. -/
theorem c10_witness :
    (addExactRule defaultRulesState ".Git").exactList = defaultRulesState.exactList ++ [".Git"] ∧
    isExcludedR (addExactRule defaultRulesState ".Git") "some-dir" =
      isExcludedR defaultRulesState "some-dir" :=
  ⟨(c10_dup_check_case_sensitive defaultRulesState ".Git" ".git" (by decide) (by decide)
      (by decide) (by decide) (by decide) (by decide)).1,
    (c10_dup_check_case_sensitive defaultRulesState ".Git" ".git" (by decide) (by decide)
      (by decide) (by decide) (by decide) (by decide)).2.1 "some-dir"⟩

/-! ## Destination containment check (`_start_file_calculation`, lines 123-129)

`os.path.commonpath` works on normalised path components; it raises
`ValueError` when the two paths live on different drives (or mix absolute
and relative), which the code catches and treats as "not nested".  A path
is modelled as its drive/root marker plus its normalised component list,
the level at which `commonpath` compares.  For a normalised path `s`,
`os.path.commonpath([s])` is `s` itself, so line 125's test
`commonpath([s]) == commonpath([s, d])` asks whether the common path of
`s` and `d` is exactly `s`. -/

structure PyPath where
  vol : String
  comps : List String
deriving DecidableEq

/-- Longest common component run, as `os.path.commonpath` computes it on
two same-volume paths. -/
def commonComps : List String → List String → List String
  | a :: as, b :: bs => if a = b then a :: commonComps as bs else []
  | _, _ => []

/-- `os.path.commonpath([s, d])`: `none` models the `ValueError` raised for
paths on different volumes. -/
def commonpathTwo (p q : PyPath) : Option PyPath :=
  if p.vol = q.vol then some ⟨p.vol, commonComps p.comps q.comps⟩ else none

/-- Line 125's condition together with the `except ValueError: pass`
handler: the destination is rejected iff it equals the source or the
common path of source and destination is the source itself; a `ValueError`
(different volumes) is swallowed and means no rejection. -/
def nestedCheckFails (src dst : PyPath) : Bool :=
  if src = dst then true
  else
    match commonpathTwo src dst with
    | some c => decide (c = src)
    | none => false

inductive CalcError where
  | destNested
deriving DecidableEq

/-- `_start_file_calculation` (lines 109-176) reduced to the containment
gate followed by the walk: rejection happens before any traversal, so a
rejected pair yields `CalcError.destNested` and no plan; otherwise the
calculation thread's plan is produced.  (The earlier unset-path and
missing-source validations are upstream of the modelled fragment.) -/
def startFileCalculation (ign : Bool) (rs : RulesState) (src dst : PyPath) (t : FSTree) :
    Except CalcError (List (List String × List String) × Nat) :=
  if nestedCheckFails src dst then .error .destNested
  else .ok (calculationThread ign rs src.comps dst.comps t)

theorem commonComps_self (l : List String) : commonComps l l = l := by
  induction l with
  | nil => rfl
  | cons a as ih => simp [commonComps, ih]

theorem commonComps_eq_left_iff (a b : List String) :
    commonComps a b = a ↔ ∃ u, b = a ++ u := by
  induction a generalizing b with
  | nil =>
    constructor
    · intro _; exact ⟨b, rfl⟩
    · intro _; cases b <;> rfl
  | cons x xs ih =>
    cases b with
    | nil =>
      simp only [commonComps]
      constructor
      · intro h; cases h
      · rintro ⟨u, hu⟩; cases hu
    | cons y ys =>
      rw [show commonComps (x :: xs) (y :: ys) =
          if x = y then x :: commonComps xs ys else [] from rfl]
      by_cases hxy : x = y
      · subst hxy
        rw [if_pos rfl]
        simp only [List.cons_append, List.cons.injEq, true_and]
        exact ih ys
      · rw [if_neg hxy]
        constructor
        · intro h; exact absurd h (by simp)
        · rintro ⟨u, hu⟩
          rw [List.cons_append] at hu
          exact absurd (List.head_eq_of_cons_eq hu).symm hxy

/-! ## Claim C5 -/

/-- C5: the containment precondition.  A destination equal to the source
or a component-descendant of it is rejected with the nested-destination
error before any traversal; a same-volume destination that is not the
source or below it passes and the plan is built; destinations on a
different volume (where `commonpath` raises `ValueError`) are never
treated as containment violations. -/
theorem c5_containment_check (ign : Bool) (rs : RulesState) (s d : PyPath) (t : FSTree) :
    (startFileCalculation ign rs s s t = .error .destNested) ∧
    (s.vol = d.vol → (∃ u, d.comps = s.comps ++ u) →
      startFileCalculation ign rs s d t = .error .destNested) ∧
    (s.vol = d.vol → (¬ ∃ u, d.comps = s.comps ++ u) →
      startFileCalculation ign rs s d t =
        .ok (calculationThread ign rs s.comps d.comps t)) ∧
    (s.vol ≠ d.vol →
      startFileCalculation ign rs s d t =
        .ok (calculationThread ign rs s.comps d.comps t)) := by
  refine ⟨?_, ?_, ?_, ?_⟩
  · simp [startFileCalculation, nestedCheckFails]
  · intro hvol hdesc
    have hfail : nestedCheckFails s d = true := by
      unfold nestedCheckFails
      by_cases heq : s = d
      · simp [heq]
      · rw [if_neg heq]
        simp only [commonpathTwo, if_pos hvol]
        have : commonComps s.comps d.comps = s.comps := (commonComps_eq_left_iff _ _).2 hdesc
        simp [this, hvol]
        cases s
        simp_all
    simp [startFileCalculation, hfail]
  · intro hvol hnodesc
    have hne : s ≠ d := by
      rintro rfl
      exact hnodesc ⟨[], by simp⟩
    have hok : nestedCheckFails s d = false := by
      unfold nestedCheckFails
      rw [if_neg hne]
      simp only [commonpathTwo, if_pos hvol]
      rw [decide_eq_false]
      intro hc
      refine hnodesc ((commonComps_eq_left_iff _ _).1 ?_)
      have := congrArg PyPath.comps hc
      simpa using this
    simp [startFileCalculation, hok]
  · intro hvol
    have hne : s ≠ d := fun h => hvol (by rw [h])
    have hok : nestedCheckFails s d = false := by
      unfold nestedCheckFails
      rw [if_neg hne]
      simp [commonpathTwo, hvol]
    simp [startFileCalculation, hok]

/-- Witness for C5 at concrete paths: `/proj` into itself and into
`/proj/backup` is rejected; into the disjoint `/backups` it is accepted;
a different-drive destination with the same trailing components is
accepted. -/
theorem c5_witness :
    (startFileCalculation false defaultRulesState ⟨"/", ["proj"]⟩ ⟨"/", ["proj"]⟩ demoTree
      = .error .destNested) ∧
    (startFileCalculation false defaultRulesState ⟨"/", ["proj"]⟩ ⟨"/", ["proj", "backup"]⟩ demoTree
      = .error .destNested) ∧
    (startFileCalculation false defaultRulesState ⟨"/", ["proj"]⟩ ⟨"/", ["backups"]⟩ demoTree
      = .ok (calculationThread false defaultRulesState ["proj"] ["backups"] demoTree)) ∧
    (startFileCalculation false defaultRulesState ⟨"/", ["proj"]⟩ ⟨"D:", ["proj", "backup"]⟩ demoTree
      = .ok (calculationThread false defaultRulesState ["proj"] ["proj", "backup"] demoTree)) :=
  ⟨(c5_containment_check false defaultRulesState ⟨"/", ["proj"]⟩ ⟨"/", ["proj"]⟩ demoTree).1,
    (c5_containment_check false defaultRulesState ⟨"/", ["proj"]⟩ ⟨"/", ["proj", "backup"]⟩
      demoTree).2.1 rfl ⟨["backup"], rfl⟩,
    (c5_containment_check false defaultRulesState ⟨"/", ["proj"]⟩ ⟨"/", ["backups"]⟩
      demoTree).2.2.1 rfl (by rintro ⟨u, hu⟩; simp at hu),
    (c5_containment_check false defaultRulesState ⟨"/", ["proj"]⟩ ⟨"D:", ["proj", "backup"]⟩
      demoTree).2.2.2 (by decide)⟩

/-! ## Destination resolution (`get_actual_dest_dir`, lines 43-58)

POSIX `os.path.basename`, `os.path.dirname`, `os.path.splitext` and
`os.path.join`, written on the character list underlying a `String`, and
`datetime.now().strftime("%Y%m%d_%H%M%S")` on an explicit clock value. -/

/-- `os.path.basename`: everything after the last slash. -/
def pyBasenameL (cs : List Char) : List Char :=
  (cs.reverse.takeWhile (fun c => !(c == '/'))).reverse

/-- `os.path.dirname`: everything up to the last slash, with trailing
slashes stripped unless the head consists only of slashes. -/
def pyDirnameL (cs : List Char) : List Char :=
  let head := (cs.reverse.dropWhile (fun c => !(c == '/'))).reverse
  if head ≠ [] ∧ ¬ head.all (fun c => c == '/') then
    (head.reverse.dropWhile (fun c => c == '/')).reverse
  else head

/-- `os.path.splitext` on a final path segment: split at the last dot,
unless every character before that dot is itself a dot (hidden-file rule),
in which case there is no extension. -/
def pySplitextL (cs : List Char) : List Char × List Char :=
  let afterDot := cs.reverse.takeWhile (fun c => !(c == '.'))
  if afterDot.length = cs.length then (cs, [])
  else
    let rootLen := cs.length - afterDot.length - 1
    if (cs.take rootLen).any (fun c => !(c == '.')) then
      (cs.take rootLen, cs.drop rootLen)
    else (cs, [])

/-- `os.path.join(a, b)` for the two-argument POSIX case. -/
def pyJoinL (a b : List Char) : List Char :=
  if b.head? = some '/' then b
  else if a = [] ∨ a.getLast? = some '/' then a ++ b
  else a ++ '/' :: b

/-- The wall-clock value fed to `strftime`. -/
structure PyDateTime where
  year : Nat
  month : Nat
  day : Nat
  hour : Nat
  minute : Nat
  second : Nat

def digitChar (n : Nat) : Char := Char.ofNat (48 + n)

def padTwo (n : Nat) : List Char :=
  if n < 10 then ['0', digitChar n] else [digitChar (n / 10), digitChar (n % 10)]

def padFour (n : Nat) : List Char := padTwo (n / 100) ++ padTwo (n % 100)

/-- `now.strftime("%Y%m%d_%H%M%S")`. -/
def fmtTimestamp (t : PyDateTime) : List Char :=
  padFour t.year ++ padTwo t.month ++ padTwo t.day ++ '_' ::
    (padTwo t.hour ++ padTwo t.minute ++ padTwo t.second)

/-- `get_actual_dest_dir` (lines 43-58): `none` when the base destination
is unset (empty string, Python falsy); otherwise, with the timestamp
switch off the base path unchanged, and with it on the path rebuilt as
`dirname / basename-root + "_" + timestamp + extension`. -/
def getActualDestDir (baseDestDir : String) (appendTimestamp : Bool)
    (now : PyDateTime) : Option String :=
  if baseDestDir = "" then none
  else if appendTimestamp then
    let cs := baseDestDir.data
    let base := pySplitextL (pyBasenameL cs)
    let newName := if base.2 ≠ [] then
        base.1 ++ '_' :: fmtTimestamp now ++ base.2
      else base.1 ++ '_' :: fmtTimestamp now
    some ⟨pyJoinL (pyDirnameL cs) newName⟩
  else some baseDestDir

/-- If a segment has no dot, `splitext` yields no extension. -/
theorem pySplitextL_no_dot (cs : List Char) (h : '.' ∉ cs) :
    (pySplitextL cs).2 = [] := by
  have hall : cs.reverse.takeWhile (fun c => !(c == '.')) = cs.reverse := by
    rw [List.takeWhile_eq_self_iff]
    intro c hc
    simp only [Bool.not_eq_eq_eq_not, Bool.not_true, beq_eq_false_iff_ne, ne_eq]
    rintro rfl
    exact h (List.mem_reverse.1 hc)
  simp [pySplitextL, hall]

/-! ## Claim C6 -/

/-- C6: destination resolution.  With the timestamp switch off any set
destination is returned unchanged; an extension is produced only when the
final path segment has a dot; and at 2024-01-02 03:04:05 the spec's two
sample paths resolve as stated. -/
theorem c6_destination_resolution :
    (∀ (d : String) (now : PyDateTime), d ≠ "" →
      getActualDestDir d false now = some d) ∧
    (∀ d : String, '.' ∉ (pyBasenameL d.data) →
      (pySplitextL (pyBasenameL d.data)).2 = []) ∧
    getActualDestDir "/a/b" true ⟨2024, 1, 2, 3, 4, 5⟩ = some "/a/b_20240102_030405" ∧
    getActualDestDir "/a/b.zip" true ⟨2024, 1, 2, 3, 4, 5⟩ =
      some "/a/b_20240102_030405.zip" := by
  refine ⟨?_, ?_, ?_, ?_⟩
  · intro d now hd
    simp [getActualDestDir, hd]
  · intro d hdot
    exact pySplitextL_no_dot _ hdot
  · decide
  · decide

/-- Witness for C6, including the unchanged-path conjunct at a concrete
destination. -/
theorem c6_witness :
    getActualDestDir "/a/b" false ⟨2024, 1, 2, 3, 4, 5⟩ = some "/a/b" ∧
    (pySplitextL (pyBasenameL ("/a/b" : String).data)).2 = [] :=
  ⟨c6_destination_resolution.1 "/a/b" ⟨2024, 1, 2, 3, 4, 5⟩ (by decide),
    c6_destination_resolution.2.1 "/a/b" (by decide)⟩

/-! ## Copy execution (`copy_thread`, lines 239-263)

The thread walks the plan entries in order.  Each iteration ensures the
destination folder exists, copies one file, increments `copied_count`, and
— when `(i + 1) % update_interval == 0` or `i + 1 == total_files_count` —
posts a progress notification carrying the current `copied_count`.  The
first raised exception aborts the loop at once; nothing already copied is
undone.  `ok` tells whether copying a given entry succeeds (permission,
disk space, path length).  The outcome records the thread's state: the
count of successful copies, the destination files written so far, and the
posted notifications; an inductive outcome is by construction either a
completion or a failure signal, never both. -/

abbrev CopyEntry := List String × List String

/-- `update_interval = max(1, total_files_count // 100)` (line 253). -/
def updateInterval (total : Nat) : Nat := max 1 (total / 100)

structure RunState where
  copied : Nat
  written : List CopyEntry
  notifs : List Nat
deriving DecidableEq

inductive RunOutcome where
  | success (final : RunState)
  | failed (failing : CopyEntry) (atFail : RunState)
deriving DecidableEq

def copyThreadAux (total : Nat) (ok : CopyEntry → Bool) :
    List CopyEntry → Nat → RunState → RunOutcome
  | [], _, st => .success st
  | e :: rest, i, st =>
    if ok e then
      copyThreadAux total ok rest (i + 1)
        ⟨st.copied + 1, st.written ++ [e],
          if (i + 1) % updateInterval total = 0 ∨ i + 1 = total then
            st.notifs ++ [st.copied + 1]
          else st.notifs⟩
    else .failed e st

/-- `copy_thread` over a plan: `total_files_count` equals the plan length
(established by C3), `copied_count` starts at zero, nothing written yet. -/
def copyThread (ok : CopyEntry → Bool) (plan : List CopyEntry) : RunOutcome :=
  copyThreadAux plan.length ok plan 0 ⟨0, [], []⟩

/-- The notification values a failure-free stretch of `len` iterations
starting after iteration `lo` posts. -/
def notifSeg (total lo len : Nat) : List Nat :=
  ((List.range len).map (fun m => lo + m + 1)).filter
    (fun j => decide (j % updateInterval total = 0) || decide (j = total))

/-- All notification values of a failure-free run of `n` files. -/
def notifIndices (total n : Nat) : List Nat := notifSeg total 0 n


theorem notifSeg_succ (total lo len : Nat) :
    notifSeg total lo (len + 1) =
      (if (lo + 1) % updateInterval total = 0 ∨ lo + 1 = total then [lo + 1] else []) ++
        notifSeg total (lo + 1) len := by
  have hmap : (List.range (len + 1)).map (fun m => lo + m + 1) =
      (lo + 1) :: (List.range len).map (fun m => (lo + 1) + m + 1) := by
    rw [List.range_succ_eq_map]
    simp only [List.map_cons, List.map_map]
    congr 1
    exact List.map_congr_left fun m _ => by simp only [Function.comp_apply]; omega
  unfold notifSeg
  rw [hmap, List.filter_cons]
  by_cases h : (lo + 1) % updateInterval total = 0 ∨ lo + 1 = total
  · rw [if_pos (by simpa using h), if_pos h]
    rfl
  · rw [if_neg (by simpa using h), if_neg h]
    rfl

theorem copyThreadAux_all_ok (total : Nat) (ok : CopyEntry → Bool) :
    ∀ (l : List CopyEntry) (i : Nat) (w : List CopyEntry) (nf : List Nat),
      (∀ e ∈ l, ok e = true) →
      copyThreadAux total ok l i ⟨i, w, nf⟩ =
        .success ⟨i + l.length, w ++ l, nf ++ notifSeg total i l.length⟩ := by
  intro l
  induction l with
  | nil =>
    intro i w nf _
    simp [copyThreadAux, notifSeg]
  | cons e es ih =>
    intro i w nf hall
    have hok : ok e = true := hall e (List.mem_cons_self _ _)
    simp only [List.length_cons]
    rw [notifSeg_succ]
    by_cases hcond : (i + 1) % updateInterval total = 0 ∨ i + 1 = total
    · simp only [copyThreadAux, hok, if_true, if_pos hcond]
      rw [ih (i + 1) (w ++ [e]) (nf ++ [i + 1])
        (fun x hx => hall x (List.mem_cons_of_mem _ hx))]
      simp only [RunOutcome.success.injEq, RunState.mk.injEq]
      refine ⟨by omega, by simp, by simp⟩
    · simp only [copyThreadAux, hok, if_true, if_neg hcond]
      rw [ih (i + 1) (w ++ [e]) nf
        (fun x hx => hall x (List.mem_cons_of_mem _ hx))]
      simp only [RunOutcome.success.injEq, RunState.mk.injEq]
      refine ⟨by omega, by simp, by simp⟩

theorem copyThreadAux_fail_at (total : Nat) (ok : CopyEntry → Bool) :
    ∀ (l : List CopyEntry) (k : Nat) (hk : k < l.length) (i : Nat)
      (w : List CopyEntry) (nf : List Nat),
      (∀ j (hj : j < k), ok (l.get ⟨j, lt_trans hj hk⟩) = true) →
      ok (l.get ⟨k, hk⟩) = false →
      copyThreadAux total ok l i ⟨i, w, nf⟩ =
        .failed (l.get ⟨k, hk⟩) ⟨i + k, w ++ l.take k, nf ++ notifSeg total i k⟩ := by
  intro l
  induction l with
  | nil =>
    intro k hk
    exact absurd hk (by simp)
  | cons e es ih =>
    intro k hk i w nf hbefore hfail
    cases k with
    | zero =>
      have hfe : ok e = false := hfail
      simp [copyThreadAux, hfe, notifSeg]
    | succ k =>
      have hok : ok e = true := hbefore 0 (Nat.succ_pos k)
      have hk' : k < es.length := Nat.lt_of_succ_lt_succ hk
      rw [notifSeg_succ]
      by_cases hcond : (i + 1) % updateInterval total = 0 ∨ i + 1 = total
      · simp only [copyThreadAux, hok, if_true, if_pos hcond]
        rw [ih k hk' (i + 1) (w ++ [e]) (nf ++ [i + 1])
          (fun j hj => hbefore (j + 1) (Nat.succ_lt_succ hj)) hfail]
        simp only [RunOutcome.failed.injEq, RunState.mk.injEq, List.take_succ_cons]
        refine ⟨rfl, by omega, by simp, by simp⟩
      · simp only [copyThreadAux, hok, if_true, if_neg hcond]
        rw [ih k hk' (i + 1) (w ++ [e]) nf
          (fun j hj => hbefore (j + 1) (Nat.succ_lt_succ hj)) hfail]
        simp only [RunOutcome.failed.injEq, RunState.mk.injEq, List.take_succ_cons]
        refine ⟨rfl, by omega, by simp, by simp⟩

/-! ## Claim C4 -/

/-- C4: when entry `k` (0-based) of a plan is the first to fail, the run
stops right there and signals a failure carrying the failing (source,
destination) pair and the number of files already copied, namely `k`;
exactly the entries before the failing one have been written at the
destination (`plan.take k`) — later entries were never copied and earlier
ones are not rolled back. -/
theorem c4_copy_stops_at_first_failure (plan : List CopyEntry) (ok : CopyEntry → Bool)
    (k : Nat) (hk : k < plan.length)
    (hbefore : ∀ j (hj : j < k), ok (plan.get ⟨j, lt_trans hj hk⟩) = true)
    (hfail : ok (plan.get ⟨k, hk⟩) = false) :
    copyThread ok plan =
      .failed (plan.get ⟨k, hk⟩) ⟨k, plan.take k, notifSeg plan.length 0 k⟩ := by
  unfold copyThread
  rw [copyThreadAux_fail_at plan.length ok plan k hk 0 [] [] hbefore hfail]
  simp

/-- The spec's three-entry scenario. -/
def demoCopyPlan : List CopyEntry :=
  [(["proj", "a.txt"], ["bak", "a.txt"]),
   (["proj", "b.txt"], ["bak", "b.txt"]),
   (["proj", "c.txt"], ["bak", "c.txt"])]

/-- Simulated permission denial on the second entry's write. -/
def demoCopyOk : CopyEntry → Bool := fun e => decide (e.1 ≠ ["proj", "b.txt"])

/-- Witness for C4: in the three-entry plan whose entry 2 fails, the run
reports one copied file, the first file exists at the destination, the
third does not. -/
theorem c4_witness :
    copyThread demoCopyOk demoCopyPlan =
      .failed (["proj", "b.txt"], ["bak", "b.txt"])
        ⟨1, [(["proj", "a.txt"], ["bak", "a.txt"])], [1]⟩ := by
  have h := c4_copy_stops_at_first_failure demoCopyPlan demoCopyOk 1 (by decide)
    (fun j hj => by
      have hj0 : j = 0 := Nat.lt_one_iff.1 hj
      subst hj0
      exact (by decide : demoCopyOk (["proj", "a.txt"], ["bak", "a.txt"]) = true))
    (by decide)
  rw [h]
  decide

/-! ## Notification counting (claim C7) -/

theorem length_filter_or_le {α : Type} (p q : α → Bool) (l : List α) :
    (l.filter (fun x => p x || q x)).length ≤
      (l.filter p).length + (l.filter q).length := by
  induction l with
  | nil => simp
  | cons a as ih =>
    by_cases hp : p a = true <;> by_cases hq : q a = true <;>
      simp [List.filter_cons, hp, hq] <;> omega

theorem countMultiples (n k : Nat) :
    (((List.range n).map (fun m => m + 1)).filter
      (fun j => decide (j % k = 0))).length = n / k := by
  induction n with
  | zero => simp
  | succ n ih =>
    rw [List.range_succ, List.map_append, List.filter_append, List.length_append, ih,
      Nat.succ_div]
    simp only [List.map_cons, List.map_nil, List.filter_cons, List.filter_nil]
    by_cases h : k ∣ n + 1
    · rw [if_pos h, if_pos (by simpa [Nat.dvd_iff_mod_eq_zero] using h)]
      simp
    · rw [if_neg h, if_neg (by simpa [Nat.dvd_iff_mod_eq_zero] using h)]
      simp

theorem length_filter_eq_val_le_one (t : Nat) (l : List Nat) (h : l.Nodup) :
    (l.filter (fun j => decide (j = t))).length ≤ 1 := by
  induction l with
  | nil => simp
  | cons a as ih =>
    rw [List.filter_cons]
    by_cases ha : a = t
    · subst ha
      rw [if_pos (by simp)]
      have hnot : as.filter (fun j => decide (j = a)) = [] := by
        rw [List.filter_eq_nil_iff]
        intro b hb
        simp only [decide_eq_true_eq]
        rintro rfl
        exact (List.nodup_cons.1 h).1 hb
      simp [hnot]
    · rw [if_neg (by simpa using ha)]
      exact ih (List.nodup_cons.1 h).2

theorem notifIndices_eq (total n : Nat) :
    notifIndices total n = ((List.range n).map (fun m => m + 1)).filter
      (fun j => decide (j % updateInterval total = 0) || decide (j = total)) := by
  unfold notifIndices notifSeg
  congr 1
  exact List.map_congr_left fun m _ => by omega

theorem notifIndices_pairwise (total n : Nat) :
    (notifIndices total n).Pairwise (· < ·) := by
  rw [notifIndices_eq]
  refine List.Pairwise.sublist (List.filter_sublist _) ?_
  exact List.Pairwise.map _ (fun a b hab => by omega) (List.pairwise_lt_range n)

theorem notifIndices_length_le (n : Nat) : (notifIndices n n).length ≤ 199 := by
  rw [notifIndices_eq]
  by_cases hn : n ≤ 199
  · calc (((List.range n).map (fun m => m + 1)).filter _).length
        ≤ ((List.range n).map (fun m => m + 1)).length := List.length_filter_le _ _
      _ = n := by simp
      _ ≤ 199 := hn
  · have h200 : 200 ≤ n := by omega
    have hq2 : 2 ≤ n / 100 := by
      rw [Nat.le_div_iff_mul_le (by norm_num)]
      omega
    have hk : updateInterval n = n / 100 := by
      unfold updateInterval
      omega
    refine le_trans (length_filter_or_le _ _ _) ?_
    rw [countMultiples n (updateInterval n)]
    have h2 : (((List.range n).map (fun m => m + 1)).filter
        (fun j => decide (j = n))).length ≤ 1 := by
      refine length_filter_eq_val_le_one n _ ?_
      exact (List.nodup_range n).map (fun a b hab => by omega)
    have hub : n ≤ 100 * (n / 100) + 99 := by
      have hmod := Nat.div_add_mod n 100
      have hlt : n % 100 < 100 := Nat.mod_lt _ (by norm_num)
      omega
    have h3 : n / (n / 100) ≤ (100 * (n / 100) + 99) / (n / 100) :=
      Nat.div_le_div_right hub
    have h4 : (100 * (n / 100) + 99) / (n / 100) = 100 + 99 / (n / 100) := by
      rw [Nat.mul_comm]
      exact Nat.mul_add_div (by omega) 100 99
    have h5 : 99 / (n / 100) ≤ 49 :=
      le_trans (Nat.div_le_div_left hq2 (by norm_num)) (by norm_num)
    rw [hk]
    omega

theorem notifIndices_getLast (n : Nat) (hn : 1 ≤ n) :
    (notifIndices n n).getLast? = some n := by
  obtain ⟨m, rfl⟩ : ∃ m, n = m + 1 := ⟨n - 1, by omega⟩
  rw [notifIndices_eq, List.range_succ, List.map_append, List.filter_append]
  have hlast : ((([m] : List Nat).map (fun x => x + 1)).filter
      (fun j => decide (j % updateInterval (m + 1) = 0) || decide (j = m + 1))) = [m + 1] := by
    simp
  rw [hlast]
  exact List.getLast?_concat _

/-! ## Claim C7

`update_interval = max(1, total // 100)` notifies on every multiple of the
interval and always on the final file.  For `total ≤ 199` the interval is
1, so *every* file notifies — up to 199 notifications, not "about 100";
for `total ≥ 200` at most 150 arise.  The sharp bound over all runs is
therefore 199. -/

/-- A 150-entry plan that copies without failure. -/
def planOfOneHundredFifty : List CopyEntry :=
  List.replicate 150 (["proj", "f.txt"], ["bak", "f.txt"])

set_option maxRecDepth 4000 in
/-- C7 as stated is false: a successful 150-entry run posts one
notification per file — 150 of them, exceeding the claimed bound of about
100 (even granting one extra for the final file, 101 < 150). -/
theorem c7_counterexample :
    copyThread (fun _ => true) planOfOneHundredFifty =
      .success ⟨150, planOfOneHundredFifty, notifIndices 150 150⟩ ∧
    (notifIndices 150 150).length = 150 ∧ 101 < 150 := by
  refine ⟨?_, by decide, by norm_num⟩
  unfold copyThread
  rw [copyThreadAux_all_ok planOfOneHundredFifty.length (fun _ => true)
    planOfOneHundredFifty 0 [] [] (fun _ _ => rfl)]
  simp [notifIndices, planOfOneHundredFifty]

/-- C7 (amended): for every successful copy run, at most 199 progress
notifications are posted (the sharp bound of `max(1, n // 100)`-interval
reporting, with one always on the final file); the posted copied-counts
are strictly increasing; and the run terminates exactly once — here with
the success outcome whose final copied-count equals the plan length, the
final notification carrying that same count (the failure outcome, the only
alternative of the outcome type, is settled by the claim-C4 theorem). -/
theorem c7_progress_reporting (plan : List CopyEntry) (ok : CopyEntry → Bool)
    (hall : ∀ e ∈ plan, ok e = true) :
    copyThread ok plan =
      .success ⟨plan.length, plan, notifIndices plan.length plan.length⟩ ∧
    (notifIndices plan.length plan.length).Pairwise (· < ·) ∧
    (notifIndices plan.length plan.length).length ≤ 199 ∧
    (1 ≤ plan.length →
      (notifIndices plan.length plan.length).getLast? = some plan.length) := by
  refine ⟨?_, notifIndices_pairwise _ _, notifIndices_length_le _,
    fun h => notifIndices_getLast _ h⟩
  unfold copyThread
  rw [copyThreadAux_all_ok plan.length ok plan 0 [] [] hall]
  simp [notifIndices]

/-- Witness for C7 (amended) on the three-entry demonstration plan with no
failures: the run succeeds with three copies and its last notification
carries `copiedCount = 3 = totalCount`. -/
theorem c7_witness :
    copyThread (fun _ => true) demoCopyPlan =
      .success ⟨3, demoCopyPlan, notifIndices 3 3⟩ ∧
    (notifIndices 3 3).getLast? = some 3 :=
  ⟨(c7_progress_reporting demoCopyPlan (fun _ => true) (fun _ _ => rfl)).1,
    (c7_progress_reporting demoCopyPlan (fun _ => true) (fun _ _ => rfl)).2.2.2 (by decide)⟩

/-! ## Configuration loading (`load_config`, lines 351-386)

The `try` block around `open`/`json.load` catches `JSONDecodeError`,
`IOError` and any other exception raised *while reading*, leaving
`config = {}`.  The `config.get(...)` calls sit after that block: they
assume the parsed document is a dict, so a file holding valid JSON whose
top level is not an object (for example `[]`) raises `AttributeError`
out of `load_config`.  Loaded paths are applied only when non-empty and
still a directory (`os.path.isdir`); the rule lists default to the
built-in sets; field values are assumed well-typed when present. -/

structure ConfigDoc where
  sourceDir : Option String
  destDir : Option String
  excludedExact : Option (List String)
  excludedStarts : Option (List String)
  appendTimestamp : Option Bool

/-- The state of `config.json` as `load_config` finds it. -/
inductive ConfigFileState where
  | missing
  | unreadable
  | invalidJson
  | parsedNonObject
  | parsedObject (doc : ConfigDoc)

/-- The engine state `load_config` establishes: the two path variables,
the rule state (stored lists plus rebuilt lower sets, lines 377-382), and
the timestamp switch. -/
structure AppConfig where
  sourceDirVar : String
  destDirVar : String
  rules : RulesState
  appendTimestampFlag : Bool
deriving DecidableEq

def emptyConfigDoc : ConfigDoc := ⟨none, none, none, none, none⟩

/-- Lines 368-386 applied to a parsed document: `config.get` with the
source's defaults, the isdir guard on both paths, and the lower-set
rebuild. -/
def applyConfigDoc (doc : ConfigDoc) (isDir : String → Bool) : AppConfig :=
  let sourceDir := doc.sourceDir.getD ""
  let destDir := doc.destDir.getD ""
  let exact := doc.excludedExact.getD defaultExcludedExact
  let starts := doc.excludedStarts.getD defaultExcludedStarts
  { sourceDirVar := if sourceDir ≠ "" ∧ isDir sourceDir then sourceDir else ""
    destDirVar := if destDir ≠ "" ∧ isDir destDir then destDir else ""
    rules := { exactList := exact, prefixList := starts,
               exactLower := exact.map pyLower, prefixLower := starts.map pyLower }
    appendTimestampFlag := doc.appendTimestamp.getD false }

/-- `load_config`: a missing, unreadable or syntactically invalid file
leaves `config = {}` and the defaults apply; a parsed object is applied;
a parsed non-object document escapes as an uncaught `AttributeError`. -/
def loadConfig (file : ConfigFileState) (isDir : String → Bool) : Except String AppConfig :=
  match file with
  | .parsedObject doc => .ok (applyConfigDoc doc isDir)
  | .parsedNonObject => .error "AttributeError"
  | _ => .ok (applyConfigDoc emptyConfigDoc isDir)

/-- The default configuration: empty paths, the built-in rules, timestamp
switch off. -/
def defaultAppConfig : AppConfig :=
  { sourceDirVar := "", destDirVar := "", rules := defaultRulesState,
    appendTimestampFlag := false }

/-! ## Claim C8 -/

/-- C8 as stated is false: a malformed configuration file — here one
holding valid JSON whose top level is not an object, such as `[]` — makes
the load raise (the `AttributeError` from `config.get` escapes) instead of
returning the default configuration. -/
theorem c8_counterexample :
    loadConfig .parsedNonObject (fun _ => true) = .error "AttributeError" := rfl

/-- C8 (amended): a missing, unreadable or syntactically invalid
configuration file is tolerated — load returns the default configuration
(exact exclusions `.git`/`node_modules`, starting pattern
`firebase-export-`, empty paths) without failing; and a stored source or
destination path that no longer exists as a directory is silently dropped
(the variable stays empty) rather than surfaced as an error.  (A valid-JSON
non-object file, by contrast, raises — see the counterexample.) -/
theorem c8_load_tolerant (isDir : String → Bool) :
    loadConfig .missing isDir = .ok defaultAppConfig ∧
    loadConfig .unreadable isDir = .ok defaultAppConfig ∧
    loadConfig .invalidJson isDir = .ok defaultAppConfig ∧
    (∀ (doc : ConfigDoc) (s : String), doc.sourceDir = some s → isDir s = false →
      loadConfig (.parsedObject doc) isDir = .ok (applyConfigDoc doc isDir) ∧
      (applyConfigDoc doc isDir).sourceDirVar = "") ∧
    (∀ (doc : ConfigDoc) (s : String), doc.destDir = some s → isDir s = false →
      (applyConfigDoc doc isDir).destDirVar = "") := by
  refine ⟨?_, ?_, ?_, ?_, ?_⟩
  · simp [loadConfig, applyConfigDoc, emptyConfigDoc, defaultAppConfig, defaultRulesState]
  · simp [loadConfig, applyConfigDoc, emptyConfigDoc, defaultAppConfig, defaultRulesState]
  · simp [loadConfig, applyConfigDoc, emptyConfigDoc, defaultAppConfig, defaultRulesState]
  · intro doc s hsrc hdir
    refine ⟨rfl, ?_⟩
    simp [applyConfigDoc, hsrc, hdir]
  · intro doc s hdst hdir
    simp [applyConfigDoc, hdst, hdir]

/-- Witness for C8 (amended): a syntactically invalid file yields the
default configuration, and a stored path that is no longer a directory is
dropped. -/
theorem c8_witness :
    loadConfig .invalidJson (fun _ => false) = .ok defaultAppConfig ∧
    (applyConfigDoc ⟨some "/gone", none, none, none, none⟩ (fun _ => false)).sourceDirVar = "" :=
  ⟨(c8_load_tolerant (fun _ => false)).2.2.1,
    ((c8_load_tolerant (fun _ => false)).2.2.2.1 ⟨some "/gone", none, none, none, none⟩
      "/gone" rfl rfl).2⟩
